import Mathlib

/-!
Verification of `src/evaluation/mteb_runner/encoders.py` (model2vec).

The file embeds the two adapter classes `StaticEmbedder` and `TorchEncoder`
over an arbitrary field of scalars (instantiated at `ℚ` for executable
witnesses and at `ℝ` where the real logarithm matters).  Third-party and
out-of-src collaborators (`reach.Reach`, `tokenlearn` utilities, sklearn PCA,
`wordfreq`, `MeanModeler`) are modelled from the specification, as noted on
each definition; everything else is a direct translation of the Python source.
Fallible operations (`np.stack` / `torch.cat` on empty input, pooling of an
empty or out-of-vocabulary token list, raising `ValueError`) are rendered with
`Option` / `Except`.
-/

namespace Model2Vec

variable {α : Type} [Field α] {γ δ : Type}

/-- Modelled from the spec (the `reach.Reach` class is an external
dependency): an ordered vector table — token strings in insertion order, one
row vector per token, an optional unknown-token index, and a name. -/
structure Reach (α : Type) where
  items : List String
  vectors : List (List α)
  unkIndex : Option Nat
  name : String

/-- The dimensionality of the table: `Reach.size` in the Python library
(number of columns, `vectors.shape[1]`). -/
def Reach.size (r : Reach α) : Nat := (r.vectors.headD []).length

/-- Look up the row vector of a token (`None` when the token is not in the
table). -/
def Reach.lookup (r : Reach α) (t : String) : Option (List α) :=
  match r.items.indexOf? t with
  | some i => r.vectors.get? i
  | none => none

/-- Monadic map over `Option`, modelling a Python loop that may raise at any
element: the whole computation fails as soon as one element fails. -/
def mapOpt (f : γ → Option δ) : List γ → Option (List δ)
  | [] => some []
  | x :: xs =>
    match f x, mapOpt f xs with
    | some y, some ys => some (y :: ys)
    | _, _ => none

/-- Pointwise sum of a list of row vectors. -/
def vecSum : List (List α) → List α
  | [] => []
  | [v] => v
  | v :: vs => List.zipWith (· + ·) v (vecSum vs)

/-- Modelled from the spec (`Reach.mean_pool`, external, called with
`safeguard=False`): average the row vectors of the given tokens; fails on an
empty token list or on a token missing from the table. -/
def Reach.mean_pool (r : Reach α) (tokens : List String) : Option (List α) :=
  match mapOpt r.lookup tokens with
  | none => none
  | some [] => none
  | some vs => some ((vecSum vs).map (fun x => x / (vs.length : α)))

/-- Modelled from the spec (`tokenlearn.model.utilities.add_token_to_reach` is
not under `src/`): inserts the token into the table (appended at the end, with
a zero row) when absent, and optionally designates it as the unknown token. -/
def add_token_to_reach (r : Reach α) (token : String) (setAsUnk : Bool) :
    Reach α :=
  let r1 :=
    if token ∈ r.items then r
    else { r with
            items := r.items ++ [token]
            vectors := r.vectors ++ [List.replicate r.size 0] }
  if setAsUnk then { r1 with unkIndex := some (r1.items.indexOf token) } else r1

/-- Modelled from the spec (`tokenlearn.model.utilities.create_tokenizer_from_vocab`
is not under `src/`): a word-level tokenizer whose vocabulary equals the
table's tokens; out-of-vocabulary words map to the unknown token. -/
def create_tokenizer_from_vocab (vocab : List String) (unk : String) :
    String → List String :=
  fun s => (s.splitOn " ").map (fun w => if w ∈ vocab then w else unk)

/-- The `StaticEmbedder` class: owns one vector table, one tokenizer, and the
unknown-token string computed at `__init__` time. -/
structure StaticEmbedder (α : Type) where
  vectors : Reach α
  tokenize : String → List String
  unkToken : String

/-- The constructor `StaticEmbedder.__init__`: stores the table and tokenizer and resolves
`vectors.indices[vectors.unk_index]`; fails (Python `KeyError`) when the
unknown index is absent or out of range. -/
def StaticEmbedder.init (v : Reach α) (tok : String → List String) :
    Option (StaticEmbedder α) :=
  match v.unkIndex with
  | none => none
  | some i =>
    match v.items.get? i with
    | none => none
    | some u => some ⟨v, tok, u⟩

/-- The call path `StaticEmbedder.__call__`: tokenize, drop tokens equal to the
unknown-token string, mean-pool the remaining token vectors. -/
def StaticEmbedder.call (e : StaticEmbedder α) (text : String) :
    Option (List α) :=
  e.vectors.mean_pool ((e.tokenize text).filter (fun t => t != e.unkToken))

/-- The per-sentence body of `StaticEmbedder.encode`: tokenize, drop unknown
tokens, truncate to the first 512 tokens, mean-pool. -/
def StaticEmbedder.sentPool (e : StaticEmbedder α) (s : String) :
    Option (List α) :=
  e.vectors.mean_pool
    (((e.tokenize s).filter (fun t => t != e.unkToken)).take 512)

/-- The batch path `StaticEmbedder.encode`: pool every sentence in order and stack the
results; `np.stack` on an empty list raises, rendered as `none`. -/
def StaticEmbedder.encode (e : StaticEmbedder α) (sentences : List String) :
    Option (List (List α)) :=
  match mapOpt e.sentPool sentences with
  | none => none
  | some out => if out.isEmpty then none else some out

/-- The first stage of `StaticEmbedder.from_vectors`: insert `"[PAD]"` and
`"[UNK]"` (the latter as unknown token), then apply PCA when requested and the
dimensionality exceeds 300.  The PCA routine (sklearn, external) is a
parameter. -/
def prep (pca : List (List α) → List (List α)) (emb : Reach α)
    (apply_pca : Bool) : Reach α :=
  let e1 := add_token_to_reach emb "[PAD]" false
  let e2 := add_token_to_reach e1 "[UNK]" true
  if apply_pca = true ∧ 300 < e2.size then
    { e2 with vectors := pca e2.vectors }
  else e2

/-- Zipf reweighting: row `i` (0-based insertion order) is scaled by
`log (i + 1)` — the code's `vectors *= np.log(np.arange(1, len+1))[:, None]`.
The logarithm (numpy, external) is a parameter. -/
def zipfWeigh (logf : α → α) (r : Reach α) : Reach α :=
  { r with
    vectors := r.vectors.mapIdx (fun i v => v.map (fun x => logf ((i : α) + 1) * x)) }

/-- Frequency reweighting: row `i` is scaled by `log (1 / word_frequency)` of
its token.  The frequency table (`wordfreq`, external) and the logarithm are
parameters. -/
def freqWeigh (logf : α → α) (wf : String → α) (r : Reach α) : Reach α :=
  { r with
    vectors :=
      (List.zip r.items r.vectors).map
        (fun p => p.2.map (fun x => logf (1 / wf p.1) * x)) }

/-- The classmethod `StaticEmbedder.from_vectors`, translated from the source: pad/unk
insertion and optional PCA first, then the zipf∧frequency configuration check
(raising `ValueError`), then the requested reweighting, then tokenizer
derivation and `__init__`.  The already-loaded table stands for the vector
file (the loader is external and surfaces its own errors). -/
def StaticEmbedder.from_vectors (pca : List (List α) → List (List α))
    (logf : α → α) (wf : String → α) (emb : Reach α)
    (apply_pca apply_zipf apply_frequency : Bool) :
    Except String (StaticEmbedder α) :=
  let e := prep pca emb apply_pca
  if apply_zipf = true ∧ apply_frequency = true then
    .error "Cannot apply both zipf and frequency weighting."
  else
    let ez := if apply_zipf then zipfWeigh logf e else e
    let ef := if apply_frequency then freqWeigh logf wf ez else ez
    match StaticEmbedder.init ef (create_tokenizer_from_vocab ef.items "[UNK]") with
    | some emb2 => .ok emb2
    | none => .error "KeyError: unknown-token index"

/-- Modelled from the spec (`tokenlearn.model.mean_modeler.MeanModeler` is
not under `src/`): the pooling model maps each sentence independently to one
fixed-size vector; `model(model.tokenize(batch)["input_ids"])` is its
pointwise lift to a batch. -/
structure TorchEncoder (α : Type) where
  model : String → List α

/-- Contiguous slices `sentences[i : i + bs]` for `i = 0, bs, 2*bs, ...`;
empty when `bs = 0` (Python `range` with step 0 raises). -/
def sliceBatches (bs : Nat) (xs : List γ) : List (List γ) :=
  match bs, xs with
  | 0, _ => []
  | _, [] => []
  | b + 1, x :: rest =>
    (x :: rest).take (b + 1) :: sliceBatches (b + 1) ((x :: rest).drop (b + 1))
termination_by xs.length
decreasing_by
  simp only [List.drop_succ_cons, List.length_drop, List.length_cons]
  omega

/-- The batch path `TorchEncoder.encode`: run the model on each contiguous batch and
concatenate the per-batch results in order; `torch.cat` on an empty list
raises, rendered as `none`. -/
def TorchEncoder.encode (t : TorchEncoder α) (sentences : List String)
    (bs : Nat) : Option (List (List α)) :=
  let results := (sliceBatches bs sentences).map (fun b => b.map t.model)
  if results.isEmpty then none else some results.flatten

/-- The weighting pipeline of `from_vectors` after the configuration check:
the prepared table, optionally zipf-weighted, optionally frequency-weighted.
The table of the embedder returned by a successful `from_vectors` is exactly
this. -/
def postW (pca : List (List α) → List (List α)) (logf : α → α)
    (wf : String → α) (emb : Reach α) (ap az af : Bool) : Reach α :=
  let e := prep pca emb ap
  let ez := if az then zipfWeigh logf e else e
  if af then freqWeigh logf wf ez else ez

/-- Well-formedness of a table at dimensionality `d`: one row per token, every
row of length `d`, and the reported size equal to `d`. -/
def WFdim (r : Reach α) (d : Nat) : Prop :=
  r.items.length = r.vectors.length ∧ r.size = d ∧ ∀ v ∈ r.vectors, v.length = d

/-! ### Concrete fixtures used by the witness theorems -/

/-- A stand-in dimensionality reducer satisfying the sklearn PCA contract
(row count preserved, every output row of length 300). -/
def pcaW : List (List ℚ) → List (List ℚ) :=
  fun m => m.map (fun _ => List.replicate 300 0)

/-- A one-token table over `ℝ` for the zipf-weighting witness. -/
def embW10 : Reach ℝ := ⟨["a"], [[1]], none, "w"⟩

/-- A small word-level tokenizer for the fixtures (any `String → List String`
is a valid tokenizer for the adapter). -/
def tokW : String → List String :=
  fun s =>
    if s = "hello zzz world" then ["hello", "[UNK]", "world"]
    else if s = "hello world" then ["hello", "world"]
    else if s = "world zzz" then ["world", "[UNK]"]
    else if s = "hello" then ["hello"]
    else ["[UNK]"]

/-- A small concrete vector table over `ℚ`. -/
def reachW : Reach ℚ :=
  { items := ["[PAD]", "[UNK]", "hello", "world"]
    vectors := [[0, 0], [0, 0], [2, 4], [4, 8]]
    unkIndex := some 1
    name := "w" }

/-- A concrete static embedder over `ℚ`. -/
def eW : StaticEmbedder ℚ := ⟨reachW, tokW, "[UNK]"⟩

/-- A small raw table standing for a loaded vector file. -/
def embW : Reach ℚ := ⟨["hello", "world"], [[2, 4], [4, 8]], none, "w"⟩

/-- The concrete output rows of `eW.encode` on a two-sentence input. -/
def rowsW : List (List ℚ) := (eW.encode ["hello", "world zzz"]).getD []

/-! ### Helper lemmas -/

/-- Unpacking a successful `mapOpt`: lengths agree and the i-th output is the
image of the i-th input. -/
theorem mapOpt_eq_some {f : γ → Option δ} :
    ∀ {xs : List γ} {ys : List δ}, mapOpt f xs = some ys →
      ys.length = xs.length ∧ ∀ i, ys.get? i = (xs.get? i).bind f
  | [], ys, h => by
    simp only [mapOpt, Option.some.injEq] at h
    subst h
    exact ⟨rfl, fun i => by cases i <;> rfl⟩
  | x :: xt, ys, h => by
    simp only [mapOpt] at h
    cases hfx : f x with
    | none => rw [hfx] at h; exact absurd h (by simp)
    | some y =>
      rw [hfx] at h
      cases hrec : mapOpt f xt with
      | none => rw [hrec] at h; exact absurd h (by simp)
      | some yt =>
        rw [hrec] at h
        simp only [Option.some.injEq] at h
        subst h
        obtain ⟨hl, hg⟩ := mapOpt_eq_some hrec
        refine ⟨by simp [hl], fun i => ?_⟩
        cases i with
        | zero => simp [hfx]
        | succ n => simpa using hg n

/-- The inserted token is a member of the resulting table. -/
theorem add_token_mem_self (r : Reach α) (t : String) (b : Bool) :
    t ∈ (add_token_to_reach r t b).items := by
  unfold add_token_to_reach
  by_cases h : t ∈ r.items <;> cases b <;> simp [h]

/-- Insertion preserves the tokens already present. -/
theorem add_token_mem_mono (r : Reach α) (t : String) (b : Bool) {s : String}
    (hs : s ∈ r.items) : s ∈ (add_token_to_reach r t b).items := by
  unfold add_token_to_reach
  by_cases h : t ∈ r.items <;> cases b <;> simp [h, hs]

/-- Inserting with `set_as_unk` leaves the unknown index pointing at the
inserted token. -/
theorem add_token_unk_spec (r : Reach α) (t : String) :
    ∃ i, (add_token_to_reach r t true).unkIndex = some i ∧
      (add_token_to_reach r t true).items.get? i = some t := by
  unfold add_token_to_reach
  by_cases h : t ∈ r.items
  · exact ⟨r.items.indexOf t, by simp [h], by simpa [h] using List.indexOf_get? h⟩
  · refine ⟨(r.items ++ [t]).indexOf t, by simp [h], ?_⟩
    simpa [h] using @List.indexOf_get? String _ t (r.items ++ [t]) (by simp)

/-- The PCA stage changes only the vectors, not the token list. -/
theorem prep_items (pca : List (List α) → List (List α)) (emb : Reach α)
    (ap : Bool) :
    (prep pca emb ap).items =
      (add_token_to_reach (add_token_to_reach emb "[PAD]" false) "[UNK]" true).items := by
  simp only [prep]
  split <;> rfl

/-- The PCA stage does not move the unknown index. -/
theorem prep_unkIndex (pca : List (List α) → List (List α)) (emb : Reach α)
    (ap : Bool) :
    (prep pca emb ap).unkIndex =
      (add_token_to_reach (add_token_to_reach emb "[PAD]" false) "[UNK]" true).unkIndex := by
  simp only [prep]
  split <;> rfl

/-- Reweighting changes only the vectors, not the token list. -/
theorem postW_items (pca : List (List α) → List (List α)) (logf : α → α)
    (wf : String → α) (emb : Reach α) (ap az af : Bool) :
    (postW pca logf wf emb ap az af).items = (prep pca emb ap).items := by
  unfold postW
  cases az <;> cases af <;> rfl

/-- Reweighting does not move the unknown index. -/
theorem postW_unkIndex (pca : List (List α) → List (List α)) (logf : α → α)
    (wf : String → α) (emb : Reach α) (ap az af : Bool) :
    (postW pca logf wf emb ap az af).unkIndex = (prep pca emb ap).unkIndex := by
  unfold postW
  cases az <;> cases af <;> rfl

/-- After the construction pipeline the unknown index is set and points at
`"[UNK]"`. -/
theorem postW_unk_spec (pca : List (List α) → List (List α)) (logf : α → α)
    (wf : String → α) (emb : Reach α) (ap az af : Bool) :
    ∃ i, (postW pca logf wf emb ap az af).unkIndex = some i ∧
      (postW pca logf wf emb ap az af).items.get? i = some "[UNK]" := by
  obtain ⟨i, h1, h2⟩ := add_token_unk_spec (add_token_to_reach emb "[PAD]" false) "[UNK]"
  exact ⟨i, by rw [postW_unkIndex, prep_unkIndex, h1],
            by rw [postW_items, prep_items, h2]⟩

/-- Whenever the two reweighting flags are not both set, `from_vectors`
succeeds and returns the embedder built from the weighted table, the derived
tokenizer, and `"[UNK]"` as the unknown token. -/
theorem from_vectors_ok (pca : List (List α) → List (List α)) (logf : α → α)
    (wf : String → α) (emb : Reach α) (ap az af : Bool)
    (hne : ¬(az = true ∧ af = true)) :
    StaticEmbedder.from_vectors pca logf wf emb ap az af =
      .ok ⟨postW pca logf wf emb ap az af,
           create_tokenizer_from_vocab (postW pca logf wf emb ap az af).items "[UNK]",
           "[UNK]"⟩ := by
  obtain ⟨i, hui, hgi⟩ := postW_unk_spec pca logf wf emb ap az af
  unfold StaticEmbedder.from_vectors
  rw [if_neg hne]
  show (match StaticEmbedder.init (postW pca logf wf emb ap az af)
          (create_tokenizer_from_vocab (postW pca logf wf emb ap az af).items "[UNK]") with
        | some emb2 => Except.ok emb2
        | none => Except.error "KeyError: unknown-token index") = _
  unfold StaticEmbedder.init
  rw [List.get?_eq_getElem?] at hgi
  rw [hui]
  simp [hgi]

/-- Insertion preserves well-formedness at the same dimensionality. -/
theorem add_token_WF {d : Nat} (r : Reach α) (t : String) (b : Bool)
    (h : WFdim r d) : WFdim (add_token_to_reach r t b) d := by
  obtain ⟨hl, hs, hu⟩ := h
  have key : ∀ r2 : Reach α, r2.items = r.items ++ [t] →
      r2.vectors = r.vectors ++ [List.replicate r.size 0] → WFdim r2 d := by
    intro r2 hit hvt
    refine ⟨by simp [hit, hvt, hl], ?_, ?_⟩
    · show Reach.size r2 = d
      unfold Reach.size
      rw [hvt, hs]
      unfold Reach.size at hs
      rcases hv : r.vectors with _ | ⟨v, vt⟩
      · simp
      · rw [hv] at hs
        simpa using hs
    · intro v hv
      rw [hvt] at hv
      rcases List.mem_append.mp hv with h1 | h1
      · exact hu v h1
      · simp only [List.mem_singleton] at h1
        subst h1
        simp [hs]
  unfold add_token_to_reach
  by_cases hmem : t ∈ r.items
  · cases b <;> simp only [if_pos hmem, Bool.false_eq_true, if_false, if_true] <;>
      exact ⟨hl, hs, hu⟩
  · cases b <;> simp only [if_neg hmem, Bool.false_eq_true, if_false, if_true] <;>
      exact key _ rfl rfl

/-- A row-length-preserving indexed map keeps all rows at dimensionality `d`. -/
theorem mapIdx_uniform {β : Type} {d : Nat} :
    ∀ (rows : List (List β)) (G : Nat → List β → List β),
      (∀ i v, (G i v).length = v.length) → (∀ v ∈ rows, v.length = d) →
      ∀ v ∈ rows.mapIdx G, v.length = d
  | [], _, _, _ => by simp
  | r :: rt, G, hG, hu => by
    rw [List.mapIdx_cons]
    intro v hv
    rcases List.mem_cons.mp hv with h1 | h1
    · rw [h1, hG]
      exact hu r (List.mem_cons_self r rt)
    · exact mapIdx_uniform rt (fun i => G (i + 1)) (fun i v => hG (i + 1) v)
        (fun v hv => hu v (List.mem_cons_of_mem r hv)) v h1

/-- Zipf reweighting preserves well-formedness at the same dimensionality. -/
theorem zipf_WF {d : Nat} (logf : α → α) (r : Reach α) (h : WFdim r d) :
    WFdim (zipfWeigh logf r) d := by
  obtain ⟨hl, hs, hu⟩ := h
  have hG : ∀ (i : Nat) (v : List α),
      (v.map (fun x => logf ((i : α) + 1) * x)).length = v.length :=
    fun _ v => List.length_map v _
  refine ⟨by simp [zipfWeigh, hl], ?_, ?_⟩
  · show Reach.size _ = d
    unfold Reach.size at hs
    unfold zipfWeigh Reach.size
    rcases hv : r.vectors with _ | ⟨v, vt⟩
    · rw [hv] at hs
      simpa using hs
    · rw [hv] at hs
      simpa [List.mapIdx_cons] using hs
  · exact mapIdx_uniform r.vectors _ hG hu

/-- Frequency reweighting preserves well-formedness at the same
dimensionality. -/
theorem freq_WF {d : Nat} (logf : α → α) (wf : String → α) (r : Reach α)
    (h : WFdim r d) : WFdim (freqWeigh logf wf r) d := by
  obtain ⟨hl, hs, hu⟩ := h
  refine ⟨by simp [freqWeigh, hl], ?_, ?_⟩
  · show Reach.size _ = d
    unfold Reach.size at hs
    unfold freqWeigh Reach.size
    rcases hv : r.vectors with _ | ⟨v, vt⟩
    · rw [hv] at hs
      simpa [List.zip_nil_right] using hs
    · rcases hi : r.items with _ | ⟨i0, it⟩
      · rw [hi, hv] at hl
        simp at hl
      · rw [hv] at hs
        simpa [List.zip_cons_cons] using hs
  · intro v' hv'
    unfold freqWeigh at hv'
    simp only [List.mem_map] at hv'
    obtain ⟨p, hp, rfl⟩ := hv'
    rw [List.length_map]
    exact hu p.2 (List.of_mem_zip hp).2

/-- The preparation stage with `apply_pca = true`: the table keeps its
dimensionality unless it exceeds 300, in which case it becomes exactly 300. -/
theorem prep_WF_true {d : Nat} (pca : List (List α) → List (List α))
    (emb : Reach α)
    (hpca : ∀ m : List (List α), (pca m).length = m.length ∧
      ∀ v ∈ pca m, v.length = 300)
    (h0 : WFdim emb d) :
    WFdim (prep pca emb true) (if 300 < d then 300 else d) := by
  have h2 : WFdim (add_token_to_reach (add_token_to_reach emb "[PAD]" false) "[UNK]" true) d :=
    add_token_WF _ "[UNK]" true (add_token_WF emb "[PAD]" false h0)
  simp only [prep]
  revert h2
  generalize add_token_to_reach (add_token_to_reach emb "[PAD]" false) "[UNK]" true = e2
  intro h2
  obtain ⟨hl2, hs2, hu2⟩ := h2
  by_cases h300 : 300 < d
  · rw [if_pos h300, if_pos (⟨trivial, by rw [hs2]; exact h300⟩ : True ∧ 300 < e2.size)]
    have hne : e2.vectors ≠ [] := by
      intro hnil
      unfold Reach.size at hs2
      rw [hnil] at hs2
      simp at hs2
      omega
    have hpne : pca e2.vectors ≠ [] := by
      intro hnil
      have hlen := (hpca e2.vectors).1
      rw [hnil] at hlen
      exact hne (List.length_eq_zero.mp hlen.symm)
    refine ⟨?_, ?_, ?_⟩
    · show e2.items.length = (pca e2.vectors).length
      rw [(hpca e2.vectors).1, hl2]
    · show Reach.size _ = 300
      unfold Reach.size
      rcases hp : pca e2.vectors with _ | ⟨p0, pt⟩
      · exact absurd hp hpne
      · simpa using (hpca e2.vectors).2 p0 (by rw [hp]; exact List.mem_cons_self p0 pt)
    · intro v hv
      exact (hpca e2.vectors).2 v hv
  · rw [if_neg h300,
      if_neg (fun hc => h300 (by rw [← hs2]; exact hc.2) : ¬(True ∧ 300 < e2.size))]
    exact ⟨hl2, hs2, hu2⟩

/-- The whole weighting pipeline preserves well-formedness of the prepared
table. -/
theorem postW_WF {d : Nat} (pca : List (List α) → List (List α)) (logf : α → α)
    (wf : String → α) (emb : Reach α) (ap az af : Bool)
    (h : WFdim (prep pca emb ap) d) :
    WFdim (postW pca logf wf emb ap az af) d := by
  unfold postW
  cases az <;> cases af <;> simp only [Bool.false_eq_true, if_false, if_true]
  · exact h
  · exact freq_WF logf wf _ h
  · exact zipf_WF logf _ h
  · exact freq_WF logf wf _ (zipf_WF logf _ h)

/-- Flattening the mapped contiguous batches recovers the pointwise map. -/
theorem sliceBatches_flatten_map (g : γ → δ) (bs : Nat) (hbs : 0 < bs) :
    ∀ (n : Nat) (xs : List γ), xs.length ≤ n →
      ((sliceBatches bs xs).map (fun b => b.map g)).flatten = xs.map g := by
  intro n
  induction n with
  | zero =>
    intro xs hx
    have hxs : xs = [] := List.eq_nil_of_length_eq_zero (Nat.le_zero.mp hx)
    subst hxs
    cases bs with
    | zero => exact absurd hbs (lt_irrefl 0)
    | succ b => simp [sliceBatches]
  | succ n ih =>
    intro xs hx
    cases xs with
    | nil =>
      cases bs with
      | zero => exact absurd hbs (lt_irrefl 0)
      | succ b => simp [sliceBatches]
    | cons x rest =>
      cases bs with
      | zero => exact absurd hbs (lt_irrefl 0)
      | succ b =>
        have hstep : sliceBatches (b + 1) (x :: rest) =
            (x :: rest).take (b + 1) ::
              sliceBatches (b + 1) ((x :: rest).drop (b + 1)) := by
          rw [sliceBatches.eq_def]
        rw [hstep]
        simp only [List.map_cons, List.flatten_cons]
        rw [ih ((x :: rest).drop (b + 1))
          (by simp only [List.length_drop, List.length_cons]
              simp only [List.length_cons] at hx
              omega)]
        rw [← List.map_append, List.take_append_drop]
        rfl

/-- On a non-empty sentence list with a positive batch size, `TorchEncoder.encode`
returns exactly the pointwise application of the model, whatever the batch
size. -/
theorem torch_encode_eq (t : TorchEncoder α) (ss : List String) (bs : Nat)
    (hbs : 0 < bs) (hne : ss ≠ []) : t.encode ss bs = some (ss.map t.model) := by
  simp only [TorchEncoder.encode]
  have hfl := sliceBatches_flatten_map t.model bs hbs ss.length ss le_rfl
  have hnonempty : (sliceBatches bs ss).map (fun b => b.map t.model) ≠ [] := by
    cases bs with
    | zero => exact absurd hbs (lt_irrefl 0)
    | succ b =>
      cases ss with
      | nil => exact absurd rfl hne
      | cons x rest => simp [sliceBatches]
  rw [if_neg (by simpa [List.isEmpty_iff] using hnonempty), hfl]

/-! ### Claims -/

/-- C1: for every loaded vector table and arbitrary PCA / logarithm /
word-frequency collaborators, `from_vectors` with `apply_zipf = true` and
`apply_frequency = true` fails with the configuration-error message and
produces no embedder, whatever `apply_pca` is. -/
theorem c1_both_weightings_error (pca : List (List ℚ) → List (List ℚ))
    (logf : ℚ → ℚ) (wf : String → ℚ) (emb : Reach ℚ) (ap : Bool) :
    StaticEmbedder.from_vectors pca logf wf emb ap true true =
      .error "Cannot apply both zipf and frequency weighting." := by
  unfold StaticEmbedder.from_vectors
  simp

/-- Witness for C1 at a concrete table. -/
theorem c1_both_weightings_error_witness :
    StaticEmbedder.from_vectors (id : List (List ℚ) → List (List ℚ)) id
        (fun _ => 1) embW false true true =
      .error "Cannot apply both zipf and frequency weighting." :=
  c1_both_weightings_error id id (fun _ => 1) embW false

/-- C2: for a fixed embedder and a text whose tokenization has at most 512
tokens after dropping unknown tokens, `encode` on the one-element list yields
exactly the single-row stacking of the `__call__` result. -/
theorem c2_call_encode_agree (e : StaticEmbedder ℚ) (text : String)
    (h : ((e.tokenize text).filter (fun t => t != e.unkToken)).length ≤ 512) :
    e.encode [text] = (e.call text).map (fun v => [v]) := by
  have hsp : e.sentPool text = e.call text := by
    unfold StaticEmbedder.sentPool StaticEmbedder.call
    rw [List.take_of_length_le h]
  unfold StaticEmbedder.encode
  simp only [mapOpt, hsp]
  cases hc : e.call text <;> simp

/-- Witness for C2 at a concrete embedder and text. -/
theorem c2_call_encode_agree_witness :
    eW.encode ["hello zzz world"] = (eW.call "hello zzz world").map (fun v => [v]) :=
  c2_call_encode_agree eW "hello zzz world" (by decide)

/-- C4: in both code paths the pooled vector is the mean-pool over exactly the
tokens different from the unknown-token string (truncated to 512 in `encode`),
and consequently inserting a token equal to the unknown token anywhere in a
tokenization does not change the `__call__` result. -/
theorem c4_unknown_excluded (e : StaticEmbedder ℚ) (textA textB : String) :
    e.call textA =
      e.vectors.mean_pool ((e.tokenize textA).filter (fun t => t != e.unkToken)) ∧
    e.sentPool textA =
      e.vectors.mean_pool
        (((e.tokenize textA).filter (fun t => t != e.unkToken)).take 512) ∧
    ∀ l1 l2 : List String, e.tokenize textA = l1 ++ e.unkToken :: l2 →
      e.tokenize textB = l1 ++ l2 → e.call textA = e.call textB := by
  refine ⟨rfl, rfl, fun l1 l2 hA hB => ?_⟩
  unfold StaticEmbedder.call
  rw [hA, hB, List.filter_append, List.filter_append, List.filter_cons]
  simp

/-- Witness for C4: a text that tokenizes partly to the unknown token pools to
the same vector as the text without it. -/
theorem c4_unknown_excluded_witness :
    eW.call "hello zzz world" = eW.call "hello world" :=
  (c4_unknown_excluded eW "hello zzz world" "hello world").2.2
    ["hello"] ["world"] (by decide) (by decide)

/-- C5: when `encode` succeeds, it returns one row per input sentence and the
i-th row is the pooled vector of the i-th sentence. -/
theorem c5_encode_order (e : StaticEmbedder ℚ) (ss : List String)
    (rows : List (List ℚ)) (h : e.encode ss = some rows) :
    rows.length = ss.length ∧ ∀ i, rows.get? i = (ss.get? i).bind e.sentPool := by
  unfold StaticEmbedder.encode at h
  cases hm : mapOpt e.sentPool ss with
  | none => rw [hm] at h; exact absurd h (by simp)
  | some out =>
    rw [hm] at h
    by_cases hout : out.isEmpty = true
    · simp [hout] at h
    · simp [hout] at h
      subst h
      exact mapOpt_eq_some hm

/-- Witness for C5 at a concrete embedder and sentence list. -/
theorem c5_encode_order_witness :
    rowsW.length = (["hello", "world zzz"] : List String).length ∧
    rowsW.get? 1 = ((["hello", "world zzz"] : List String).get? 1).bind eW.sentPool :=
  ⟨(c5_encode_order eW ["hello", "world zzz"] rowsW rfl).1,
   (c5_encode_order eW ["hello", "world zzz"] rowsW rfl).2 1⟩

/-- C8: the token sequence pooled by `encode` is the first 512 tokens of the
tokenization after unknown tokens have been dropped: its length is
`min 512` of the filtered length (so a long filtered sequence still
contributes 512 known tokens) and it contains no unknown token. -/
theorem c8_drop_then_truncate (e : StaticEmbedder ℚ) (s : String) :
    e.sentPool s =
      e.vectors.mean_pool
        (((e.tokenize s).filter (fun t => t != e.unkToken)).take 512) ∧
    (((e.tokenize s).filter (fun t => t != e.unkToken)).take 512).length
      = min 512 ((e.tokenize s).filter (fun t => t != e.unkToken)).length ∧
    ∀ t ∈ ((e.tokenize s).filter (fun t => t != e.unkToken)).take 512,
      t ≠ e.unkToken := by
  refine ⟨rfl, List.length_take 512 _, fun t ht => ?_⟩
  have hmem := List.mem_of_mem_take ht
  have hp := List.of_mem_filter hmem
  simpa using hp

/-- Witness for C8 at a concrete embedder and sentence. -/
theorem c8_drop_then_truncate_witness :
    eW.sentPool "world zzz" =
      eW.vectors.mean_pool
        (((eW.tokenize "world zzz").filter (fun t => t != eW.unkToken)).take 512) ∧
    (((eW.tokenize "world zzz").filter (fun t => t != eW.unkToken)).take 512).length
      = min 512 ((eW.tokenize "world zzz").filter (fun t => t != eW.unkToken)).length ∧
    ∀ t ∈ ((eW.tokenize "world zzz").filter (fun t => t != eW.unkToken)).take 512,
      t ≠ eW.unkToken :=
  c8_drop_then_truncate eW "world zzz"

/-- C9: `encode` on the empty sentence list fails for both adapters
(`np.stack` respectively `torch.cat` on an empty list), for every embedder,
every model and every batch size. -/
theorem c9_empty_input_fails (e : StaticEmbedder ℚ) (t : TorchEncoder ℚ)
    (bs : Nat) : e.encode [] = none ∧ t.encode [] bs = none := by
  refine ⟨rfl, ?_⟩
  unfold TorchEncoder.encode
  cases bs <;> simp [sliceBatches]


/-- Witness for C9 at a concrete embedder, model and batch size. -/
theorem c9_empty_input_fails_witness :
    eW.encode [] = none ∧
    (⟨fun s => [(s.length : ℚ)]⟩ : TorchEncoder ℚ).encode [] 32 = none :=
  c9_empty_input_fails eW ⟨fun s => [(s.length : ℚ)]⟩ 32

/-- C3: with `apply_pca = true`, for any well-formed loaded table and any PCA
routine obeying the sklearn contract (row count preserved, output rows of
length 300), the constructed embedder's dimensionality is exactly 300 when
the loaded dimensionality exceeds 300 and is unchanged otherwise. -/
theorem c3_pca_dimensionality (pca : List (List ℚ) → List (List ℚ))
    (logf : ℚ → ℚ) (wf : String → ℚ) (emb : Reach ℚ) (az af : Bool)
    (hpca : ∀ m : List (List ℚ), (pca m).length = m.length ∧
      ∀ v ∈ pca m, v.length = 300)
    (hwf : emb.items.length = emb.vectors.length)
    (hd : ∀ v ∈ emb.vectors, v.length = emb.size)
    (hne : ¬(az = true ∧ af = true)) :
    (StaticEmbedder.from_vectors pca logf wf emb true az af).map
        (fun e => e.vectors.size)
      = .ok (if 300 < emb.size then 300 else emb.size) := by
  rw [from_vectors_ok pca logf wf emb true az af hne]
  have h1 := prep_WF_true pca emb hpca ⟨hwf, rfl, hd⟩
  have h2 := postW_WF pca logf wf emb true az af h1
  simp only [Except.map]
  exact congrArg Except.ok h2.2.1

/-- Witness for C3 at a concrete table and a concrete PCA stand-in. -/
theorem c3_pca_dimensionality_witness :
    (StaticEmbedder.from_vectors pcaW id (fun _ => 1) embW true false false).map
        (fun e => e.vectors.size)
      = .ok (if 300 < embW.size then 300 else embW.size) :=
  c3_pca_dimensionality pcaW id (fun _ => 1) embW false false
    (fun m => ⟨List.length_map m _, fun v hv => by
      obtain ⟨a, _, rfl⟩ := List.mem_map.mp hv
      exact List.length_replicate 300 0⟩)
    (by decide) (by decide) (by decide)

/-- C6: for a non-empty sentence list and any two positive batch sizes,
`TorchEncoder.encode` returns the same concatenated output. -/
theorem c6_batch_size_invariant (t : TorchEncoder ℚ) (ss : List String)
    (bs1 bs2 : Nat) (h1 : 0 < bs1) (h2 : 0 < bs2) (hne : ss ≠ []) :
    t.encode ss bs1 = t.encode ss bs2 := by
  rw [torch_encode_eq t ss bs1 h1 hne, torch_encode_eq t ss bs2 h2 hne]

/-- Witness for C6: batch sizes 1 and 2 agree on a concrete three-sentence
input. -/
theorem c6_batch_size_invariant_witness :
    (⟨fun s => [(s.length : ℚ)]⟩ : TorchEncoder ℚ).encode ["a", "bb", "ccc"] 1
      = (⟨fun s => [(s.length : ℚ)]⟩ : TorchEncoder ℚ).encode ["a", "bb", "ccc"] 2 :=
  c6_batch_size_invariant ⟨fun s => [(s.length : ℚ)]⟩ ["a", "bb", "ccc"] 1 2
    (by decide) (by decide) (by decide)

/-- C7: whenever construction succeeds (the two reweighting flags are not
both set), the returned table contains `"[PAD]"` and `"[UNK]"`, the unknown
index points at `"[UNK]"`, and the embedder's unknown token is `"[UNK]"`. -/
theorem c7_pad_unk_present (pca : List (List ℚ) → List (List ℚ))
    (logf : ℚ → ℚ) (wf : String → ℚ) (emb : Reach ℚ) (ap az af : Bool)
    (hne : ¬(az = true ∧ af = true)) :
    ∃ e', StaticEmbedder.from_vectors pca logf wf emb ap az af = .ok e' ∧
      "[PAD]" ∈ e'.vectors.items ∧ "[UNK]" ∈ e'.vectors.items ∧
      e'.unkToken = "[UNK]" ∧
      ∃ i, e'.vectors.unkIndex = some i ∧
        e'.vectors.items.get? i = some "[UNK]" := by
  refine ⟨_, from_vectors_ok pca logf wf emb ap az af hne, ?_, ?_, rfl, ?_⟩
  · show "[PAD]" ∈ (postW pca logf wf emb ap az af).items
    rw [postW_items, prep_items]
    exact add_token_mem_mono _ "[UNK]" true (add_token_mem_self emb "[PAD]" false)
  · show "[UNK]" ∈ (postW pca logf wf emb ap az af).items
    rw [postW_items, prep_items]
    exact add_token_mem_self _ "[UNK]" true
  · exact postW_unk_spec pca logf wf emb ap az af

/-- Witness for C7 at a concrete table with no flags set. -/
theorem c7_pad_unk_present_witness :
    ∃ e', StaticEmbedder.from_vectors (id : List (List ℚ) → List (List ℚ)) id
        (fun _ => 1) embW false false false = .ok e' ∧
      "[PAD]" ∈ e'.vectors.items ∧ "[UNK]" ∈ e'.vectors.items ∧
      e'.unkToken = "[UNK]" ∧
      ∃ i, e'.vectors.unkIndex = some i ∧
        e'.vectors.items.get? i = some "[UNK]" :=
  c7_pad_unk_present id id (fun _ => 1) embW false false false (by decide)

/-- C10: with `apply_zipf = true` (and frequency weighting off), the returned
table is the prepared table with row `i` scaled by `log (i + 1)`; in
particular row 0 is scaled by `log 1 = 0` and becomes the zero vector. -/
theorem c10_zipf_row_weights (emb : Reach ℝ)
    (pca : List (List ℝ) → List (List ℝ)) (wf : String → ℝ) (ap : Bool) :
    ∃ e', StaticEmbedder.from_vectors pca Real.log wf emb ap true false = .ok e' ∧
      e'.vectors.vectors = (prep pca emb ap).vectors.mapIdx
        (fun i v => v.map (fun x => Real.log ((i : ℝ) + 1) * x)) ∧
      ∀ v0, (prep pca emb ap).vectors.get? 0 = some v0 →
        e'.vectors.vectors.get? 0 = some (List.replicate v0.length (0 : ℝ)) := by
  refine ⟨_, from_vectors_ok pca Real.log wf emb ap true false (by simp), ?_, ?_⟩
  · show (postW pca Real.log wf emb ap true false).vectors = _
    unfold postW zipfWeigh
    simp
  · intro v0 h0
    show (postW pca Real.log wf emb ap true false).vectors.get? 0 = _
    unfold postW zipfWeigh
    rcases hv : (prep pca emb ap).vectors with _ | ⟨v, vt⟩
    · rw [hv] at h0
      simp at h0
    · rw [hv] at h0
      simp only [List.get?] at h0
      rw [Option.some.injEq] at h0
      subst h0
      simp [hv, List.mapIdx_cons, Real.log_one]

/-- Witness for C10: on a one-word table the first row of the zipf-weighted
output is the zero vector. -/
theorem c10_zipf_row_weights_witness :
    ∃ e', StaticEmbedder.from_vectors (id : List (List ℝ) → List (List ℝ))
        Real.log (fun _ => 1) embW10 false true false = .ok e' ∧
      e'.vectors.vectors.get? 0 = some (List.replicate 1 (0 : ℝ)) := by
  obtain ⟨e', h1, _, h3⟩ := c10_zipf_row_weights embW10 id (fun _ => 1) false
  exact ⟨e', h1, h3 [1] rfl⟩

end Model2Vec
